import Mathlib

/-!
# LDAP-Scout: a shallow embedding of `src/LDAP-Scout.py`

This file embeds the analytical core of LDAP-Scout — the line-oriented
parser `parse_ldap_output`, the inventory mode `list_users`, the field
validation `validate_fields`, and the classifier
`find_non_standard_fields` — as executable Lean definitions, and proves
the behavioural claims about them.

Modelling conventions:
* A Python `dict` (insertion-ordered, unique keys) is an ordered
  association list; assigning to a fresh key appends, assigning to an
  existing key replaces in place.
* `str.strip()` is `strip` below, trimming the ASCII whitespace
  characters Python strips.  `splitlines()` is splitting on `'\n'`
  (the claims' inputs use only `'\n'`); the only difference is a
  possible trailing empty segment, which the parser ignores anyway.
* Python floats `0.1, 0.25, 0.5, 0.75, 0.95, 0.6` are modelled as the
  rationals they denote, written as `numerator / 100` pairs; the
  program's only use of them, `count < total * fraction`, becomes the
  exact cross-multiplied integer comparison
  `count * denominator < total * numerator`.
* `Counter` lookup of a missing key is `0`, as in Python.
* Terminal colours and `print` calls are presentation only and are
  dropped; each displayed record is kept as plain data.
-/

/-- One parsed LDAP entry: a Python dict from attribute name to the list
of its values, as an insertion-ordered association list. -/
abbrev Entry := List (String × List String)

/-- One entry's classification result: attribute name ↦ (label, values),
again an insertion-ordered association list (colour codes dropped). -/
abbrev CResult := List (String × String × List String)

/-- The ASCII whitespace characters stripped by Python's `str.strip()`. -/
def isWS (c : Char) : Bool :=
  c = ' ' || c = '\t' || c = '\n' || c = '\r' || c = '\x0b' || c = '\x0c'

/-- Drop leading and trailing whitespace from a character list. -/
def stripChars (cs : List Char) : List Char :=
  ((cs.dropWhile isWS).reverse.dropWhile isWS).reverse

/-- Python's `str.strip()`. -/
def strip (s : String) : String := String.mk (stripChars s.data)

/-- Split a character list at every occurrence of `c` (the segments do
not contain `c`); models `str.splitlines` for `c = '\n'`. -/
def splitOnChar (c : Char) : List Char → List (List Char)
  | [] => [[]]
  | x :: xs =>
      if x = c then [] :: splitOnChar c xs
      else
        match splitOnChar c xs with
        | [] => [[x]]
        | l :: ls => (x :: l) :: ls

/-- `line.split(":", 1)`: `some (before, after)` at the first colon,
`none` when the line has no colon. -/
def breakAtColon : List Char → Option (List Char × List Char)
  | [] => none
  | c :: rest =>
      if c = ':' then some ([], rest)
      else
        match breakAtColon rest with
        | none => none
        | some (pre, post) => some (c :: pre, post)

/-- `user[key].append(value)` / `user[key] = [value]`: append to the
value sequence of an existing key (keeping its position), else insert a
new single-value key at the end. -/
def addAttr (u : Entry) (k v : String) : Entry :=
  if u.any (fun p => p.1 == k) then
    u.map (fun p => if p.1 == k then (p.1, p.2 ++ [v]) else p)
  else u ++ [(k, [v])]

/-- `vs[-1] += " " ++ s`: extend the last value of a value sequence (a
no-op on the empty sequence, which the program never produces). -/
def appendLastVal : List String → String → List String
  | [], _ => []
  | [v], s => [v ++ " " ++ s]
  | v :: w :: rest, s => v :: appendLastVal (w :: rest) s

/-- `user[last_key][-1] += " " + line`: extend the last value of the
most-recently-inserted key. -/
def appendCont : Entry → String → Entry
  | [], _ => []
  | [(k, vs)], s => [(k, appendLastVal vs s)]
  | p :: q :: rest, s => p :: appendCont (q :: rest) s

/-- One iteration of the parser's line loop (`src/LDAP-Scout.py` lines
34–49).  State: (entries emitted so far, current accumulator).  A blank
line flushes a non-empty accumulator; a colon line splits at the first
colon and trims key and value; any other line extends the last value of
the last key — but only when the accumulator is non-empty *and* its
last key is a non-empty (truthy) string, mirroring
`if user and list(user.keys())[-1]:`. -/
def stepLine (st : List Entry × Entry) (raw : String) : List Entry × Entry :=
  let line := strip raw
  if line = "" then
    (if st.2 = [] then st.1 else st.1 ++ [st.2], [])
  else
    match breakAtColon line.data with
    | some (pre, post) =>
        (st.1, addAttr st.2 (strip (String.mk pre)) (strip (String.mk post)))
    | none =>
        match st.2.getLast? with
        | some (k, _) => if k = "" then st else (st.1, appendCont st.2 (strip line))
        | none => st

/-- The parser's loop over a list of lines, plus the final flush of a
non-empty accumulator (`src/LDAP-Scout.py` lines 50–52). -/
def parseLines (lines : List String) : List Entry :=
  let st := lines.foldl stepLine ([], [])
  if st.2 = [] then st.1 else st.1 ++ [st.2]

/-- `parse_ldap_output` (`src/LDAP-Scout.py` lines 31–52). -/
def parse_ldap_output (s : String) : List Entry :=
  parseLines ((splitOnChar '\n' s.data).map String.mk)

/-- The fixed `standard_ldap_fields` set (`src/LDAP-Scout.py` lines
11–20); only membership is ever used. -/
def standard_ldap_fields : List String :=
  ["dn", "objectClass", "cn", "sn", "givenName", "distinguishedName", "instanceType",
   "whenCreated", "whenChanged", "displayName", "uSNCreated", "uSNChanged", "name",
   "objectGUID", "userAccountControl", "badPwdCount", "codePage", "countryCode",
   "badPasswordTime", "lastLogoff", "lastLogon", "pwdLastSet", "primaryGroupID",
   "objectSid", "adminCount", "accountExpires", "logonCount", "sAMAccountName",
   "sAMAccountType", "objectCategory", "isCriticalSystemObject", "dSCorePropagationData",
   "telephoneNumber", "mail", "memberOf", "description", "title", "department",
   "company", "streetAddress", "postalCode", "c", "l", "st"]

/-- `threshold_levels` (`src/LDAP-Scout.py` lines 23–29): level ↦ rarity
fraction, as a (numerator, denominator) pair: `0.10, 0.25, 0.50, 0.75,
0.95` are `10/100 … 95/100`.  Levels outside 1–5 cannot reach the
program (argparse `choices=[1,2,3,4,5]`); they map to `0/100` here. -/
def threshold_levels (l : Nat) : Nat × Nat :=
  if l = 1 then (10, 100)
  else if l = 2 then (25, 100)
  else if l = 3 then (50, 100)
  else if l = 4 then (75, 100)
  else if l = 5 then (95, 100)
  else (0, 100)

/-- `count < total * (t.1 / t.2)` in exact rational arithmetic,
cross-multiplied by the (positive) denominator `t.2`: the rarity test
`field_count[field] < total_users * fraction`. -/
def belowFrac (count total : Nat) (t : Nat × Nat) : Prop :=
  count * t.2 < total * t.1

instance (count total : Nat) (t : Nat × Nat) : Decidable (belowFrac count total t) :=
  inferInstanceAs (Decidable (count * t.2 < total * t.1))

/-- Does the entry possess attribute `f` (`field in user`)? -/
def hasField (u : Entry) (f : String) : Bool :=
  u.any (fun p => p.1 == f)

/-- `user[f]` for a possessed attribute; `[]` when absent (the program
only indexes possessed attributes). -/
def getValues (u : Entry) (f : String) : List String :=
  match u.find? (fun p => p.1 == f) with
  | some p => p.2
  | none => []

/-- `Counter` of attribute occurrences: the number of entries containing
`f` (dict keys are unique, so each entry counts once per attribute). -/
def fieldCount (users : List Entry) (f : String) : Nat :=
  (users.filter (fun u => hasField u f)).length

/-- `user.get("cn", ["Unknown"])[0]`: the first `cn` value, else the
placeholder `"Unknown"`. -/
def getUsername (u : Entry) : String :=
  match u.find? (fun p => p.1 == "cn") with
  | some (_, v :: _) => v
  | _ => "Unknown"

/-- The display tier of `list_users` (its three colours). -/
inductive Tier where
  | nonstandard
  | rare
  | standard
deriving DecidableEq, Repr

/-- The `non_standard` / `rare_field` / else colour chain of
`list_users` (`src/LDAP-Scout.py` lines 80–89). -/
def userTier (fc : String → Nat) (total : Nat) (u : Entry) : Tier :=
  let non_standard := u.any (fun p => !(standard_ldap_fields.contains p.1))
  let rare_field := u.any (fun p => decide (belowFrac (fc p.1) total (60, 100)))
  if non_standard then Tier.nonstandard
  else if rare_field then Tier.rare
  else Tier.standard

/-- One iteration of the `list_users` loop (`src/LDAP-Scout.py` lines
73–92): skip `"Unknown"` names, otherwise record (name, tier) and bump
`displayed_users`. -/
def list_users_step (fc : String → Nat) (total : Nat)
    (acc : List (String × Tier) × Nat) (u : Entry) : List (String × Tier) × Nat :=
  let username := getUsername u
  if username = "Unknown" then acc
  else (acc.1 ++ [(username, userTier fc total u)], acc.2 + 1)

/-- `list_users` (`src/LDAP-Scout.py` lines 67–95): the displayed
(name, tier) sequence and the returned `displayed_users` count. -/
def list_users (users : List Entry) (fc : String → Nat) :
    List (String × Tier) × Nat :=
  users.foldl (list_users_step fc users.length) ([], 0)

/-- `validate_fields` (`src/LDAP-Scout.py` lines 97–105): keep the
fields present in the data, drop (with a warning, not modelled) the
rest. -/
def validate_fields (fields existing : List String) : List String :=
  fields.filter (fun f => existing.contains f)

/-- The per-attribute primary classification loop of
`find_non_standard_fields` (`src/LDAP-Scout.py` lines 124–132): keep a
non-excluded attribute iff it is non-standard or globally rarer than
`total * threshold`; label accordingly.  Dict keys are unique, so each
kept attribute is a fresh append. -/
def classifyEntry (fc : String → Nat) (total : Nat) (thr : Nat × Nat)
    (excl : List String) : Entry → CResult
  | [] => []
  | (f, vs) :: rest =>
      if excl.contains f = false ∧
          (standard_ldap_fields.contains f = false ∨ belowFrac (fc f) total thr) then
        (f,
         (if standard_ldap_fields.contains f = false then "Non-Standard Field"
          else "Rare Standard Field"),
         vs) :: classifyEntry fc total thr excl rest
      else classifyEntry fc total thr excl rest

/-- Dict assignment `r[k] = (lab, vs)`: replace in place when the key
exists, else append. -/
def setAttr (r : CResult) (k lab : String) (vs : List String) : CResult :=
  if r.any (fun p => p.1 == k) then
    r.map (fun p => if p.1 == k then (k, lab, vs) else p)
  else r ++ [(k, lab, vs)]

/-- Merging `--include` fields into a non-empty primary result
(`src/LDAP-Scout.py` lines 136–139). -/
def includeMerge (u : Entry) (incl : List String) (base : CResult) : CResult :=
  incl.foldl
    (fun r f => if hasField u f then setAttr r f "Included Field" (getValues u f) else r)
    base

/-- The separate `--include-all` result for one entry
(`src/LDAP-Scout.py` lines 144–147). -/
def buildIncludeAll (u : Entry) (ia : List String) : CResult :=
  ia.foldl
    (fun r f => if hasField u f then setAttr r f "Include-All Field" (getValues u f) else r)
    []

/-- One iteration of the `find_non_standard_fields` user loop
(`src/LDAP-Scout.py` lines 119–148).  The `continue` for unnamed,
description-less entries skips the whole iteration — the primary pass
*and* the include-all pass. -/
def fns_step (fc : String → Nat) (total : Nat) (thr : Nat × Nat)
    (excl incl ia : List String)
    (acc : List (String × CResult) × List (String × CResult)) (u : Entry) :
    List (String × CResult) × List (String × CResult) :=
  let username := getUsername u
  if username = "Unknown" ∧ hasField u "description" = false then acc
  else
    let base := classifyEntry fc total thr excl u
    let acc1 := if base = [] then acc.1 else acc.1 ++ [(username, includeMerge u incl base)]
    let acc2 :=
      if ia ≠ [] ∧ ia.any (fun f => hasField u f) then
        acc.2 ++ [(username, buildIncludeAll u ia)]
      else acc.2
    (acc1, acc2)

/-- `find_non_standard_fields` (`src/LDAP-Scout.py` lines 107–150):
(primary results, additional include-all results). -/
def find_non_standard_fields (users : List Entry)
    (excl incl ia : List String) (level : Nat) :
    List (String × CResult) × List (String × CResult) :=
  users.foldl
    (fns_step (fieldCount users) users.length (threshold_levels level) excl incl ia)
    ([], [])

/-! ## Lemmas about whitespace trimming -/

/-- A string is trimmed when `strip` leaves it unchanged (no leading or
trailing whitespace). -/
def IsTrimmed (s : String) : Prop := strip s = s

instance (s : String) : Decidable (IsTrimmed s) :=
  inferInstanceAs (Decidable (strip s = s))

theorem dropWhile_cons_neg {p : Char → Bool} {x : Char} {l : List Char}
    (h : p x = false) : List.dropWhile p (x :: l) = x :: l := by
  simp [List.dropWhile_cons, h]

theorem dropWhile_eq_self_of_head? {p : Char → Bool} {l : List Char}
    (h : ∀ c, l.head? = some c → p c = false) : List.dropWhile p l = l := by
  cases l with
  | nil => rfl
  | cons x xs => exact dropWhile_cons_neg (h x rfl)

theorem head?_dropWhile_neg {p : Char → Bool} :
    ∀ {l : List Char} {c : Char}, (List.dropWhile p l).head? = some c → p c = false := by
  intro l
  induction l with
  | nil => intro c h; simp at h
  | cons x xs ih =>
      intro c h
      cases hx : p x with
      | false =>
          rw [List.dropWhile_cons, hx] at h
          simp at h
          exact h ▸ hx
      | true =>
          rw [List.dropWhile_cons, hx] at h
          simp at h
          exact ih h

theorem dropWhile_dropWhile (p : Char → Bool) (l : List Char) :
    List.dropWhile p (List.dropWhile p l) = List.dropWhile p l := by
  apply dropWhile_eq_self_of_head?
  intro c hc
  exact head?_dropWhile_neg hc

theorem dropWhile_eq_self_of_length {p : Char → Bool} {l : List Char}
    (h : (List.dropWhile p l).length = l.length) : List.dropWhile p l = l :=
  (List.dropWhile_sublist p).eq_of_length h

/-- Strings of data `l` with `stripChars l = l` have no strippable
prefix and, reversed, no strippable prefix either. -/
theorem stripChars_eq_self_parts {l : List Char} (h : stripChars l = l) :
    List.dropWhile isWS l = l ∧ List.dropWhile isWS l.reverse = l.reverse := by
  have h1 : List.dropWhile isWS l = l := by
    apply dropWhile_eq_self_of_length
    have hlen : (stripChars l).length = l.length := by rw [h]
    have e1 : (stripChars l).length =
        (List.dropWhile isWS (List.dropWhile isWS l).reverse).length := by
      simp [stripChars]
    have le1 : (List.dropWhile isWS (List.dropWhile isWS l).reverse).length ≤
        (List.dropWhile isWS l).reverse.length :=
      (List.dropWhile_sublist _).length_le
    have le2 : (List.dropWhile isWS l).length ≤ l.length :=
      (List.dropWhile_sublist _).length_le
    simp at le1
    omega
  refine ⟨h1, ?_⟩
  have h2 : stripChars l = (List.dropWhile isWS l.reverse).reverse := by
    unfold stripChars
    rw [h1]
  have := h2.symm.trans h
  have : List.dropWhile isWS l.reverse = l.reverse := by
    have e := congrArg List.reverse this
    simpa using e
  exact this

theorem IsTrimmed.data_eq {s : String} (h : IsTrimmed s) :
    stripChars s.data = s.data := by
  have : (strip s).data = s.data := congrArg String.data h
  simpa [strip] using this

theorem IsTrimmed.drop_front {s : String} (h : IsTrimmed s) :
    List.dropWhile isWS s.data = s.data :=
  (stripChars_eq_self_parts h.data_eq).1

theorem IsTrimmed.drop_back {s : String} (h : IsTrimmed s) :
    List.dropWhile isWS s.data.reverse = s.data.reverse :=
  (stripChars_eq_self_parts h.data_eq).2

theorem stripChars_idem (l : List Char) : stripChars (stripChars l) = stripChars l := by
  have front : List.dropWhile isWS (stripChars l) = stripChars l := by
    apply dropWhile_eq_self_of_head?
    intro c hc
    unfold stripChars at hc
    rw [List.head?_reverse] at hc
    rcases hdw : List.dropWhile isWS (List.dropWhile isWS l).reverse with _ | ⟨x, xs⟩
    · rw [hdw] at hc; simp at hc
    · rw [hdw] at hc
      have hsfx : List.takeWhile isWS (List.dropWhile isWS l).reverse ++ (x :: xs) =
          (List.dropWhile isWS l).reverse := by
        rw [← hdw]; exact List.takeWhile_append_dropWhile _ _
      have h1 : ((List.dropWhile isWS l).reverse).getLast? = some c := by
        rw [← hsfx, List.getLast?_append, hc]
        rfl
      rw [List.getLast?_reverse] at h1
      exact head?_dropWhile_neg h1
  have hrev : (stripChars l).reverse = List.dropWhile isWS (List.dropWhile isWS l).reverse := by
    simp [stripChars]
  calc stripChars (stripChars l)
      = (List.dropWhile isWS (List.dropWhile isWS (stripChars l)).reverse).reverse := rfl
    _ = (List.dropWhile isWS (stripChars l).reverse).reverse := by rw [front]
    _ = (List.dropWhile isWS
          (List.dropWhile isWS (List.dropWhile isWS l).reverse)).reverse := by rw [hrev]
    _ = (List.dropWhile isWS (List.dropWhile isWS l).reverse).reverse := by
          rw [dropWhile_dropWhile]
    _ = stripChars l := rfl

theorem strip_strip (s : String) : strip (strip s) = strip s := by
  simp [strip, stripChars_idem]

/-! ## Lemmas about line splitting and the first-colon split -/

theorem splitOnChar_ne_nil (c : Char) (cs : List Char) : splitOnChar c cs ≠ [] := by
  induction cs with
  | nil => simp [splitOnChar]
  | cons x xs ih =>
      by_cases hx : x = c
      · simp [splitOnChar, hx]
      · simp only [splitOnChar, if_neg hx]
        rcases h : splitOnChar c xs with _ | ⟨l, ls⟩
        · exact absurd h ih
        · simp

theorem splitOnChar_append {c : Char} {xs : List Char} (ys : List Char)
    (h : c ∉ xs) : splitOnChar c (xs ++ c :: ys) = xs :: splitOnChar c ys := by
  induction xs with
  | nil => simp [splitOnChar]
  | cons a as ih =>
      have ha : a ≠ c := by intro e; exact h (e ▸ List.mem_cons_self a as)
      have has : c ∉ as := fun m => h (List.mem_cons_of_mem a m)
      have e : splitOnChar c ((a :: as) ++ c :: ys) =
          match splitOnChar c (as ++ c :: ys) with
          | [] => [[a]]
          | l :: ls => (a :: l) :: ls := by
        simp only [List.cons_append, splitOnChar, if_neg ha, List.append_eq]
      rw [e, ih has]

theorem breakAtColon_sound :
    ∀ {cs pre post : List Char}, breakAtColon cs = some (pre, post) →
      pre ++ ':' :: post = cs ∧ ':' ∉ pre := by
  intro cs
  induction cs with
  | nil => intro pre post h; simp [breakAtColon] at h
  | cons a rest ih =>
      intro pre post h
      by_cases ha : a = ':'
      · simp only [breakAtColon, if_pos ha] at h
        obtain ⟨h1, h2⟩ := Prod.mk.injEq .. ▸ (Option.some.injEq .. ▸ h)
        subst ha; rw [← h1, ← h2]; simp
      · simp only [breakAtColon, if_neg ha] at h
        rcases hb : breakAtColon rest with _ | ⟨p, q⟩
        · rw [hb] at h; simp at h
        · rw [hb] at h
          simp at h
          obtain ⟨h1, h2⟩ := h
          obtain ⟨hpq, hnp⟩ := ih hb
          subst h2
          rw [← h1]
          constructor
          · simp [hpq]
          · intro m
            rcases List.mem_cons.mp m with e | m2
            · exact ha e.symm
            · exact hnp m2

theorem breakAtColon_append {pre : List Char} (post : List Char)
    (h : ':' ∉ pre) : breakAtColon (pre ++ ':' :: post) = some (pre, post) := by
  induction pre with
  | nil => simp [breakAtColon]
  | cons a as ih =>
      have ha : a ≠ ':' := by intro e; exact h (e ▸ List.mem_cons_self a as)
      have has : ':' ∉ as := fun m => h (List.mem_cons_of_mem a m)
      have e : breakAtColon ((a :: as) ++ ':' :: post) =
          match breakAtColon (as ++ ':' :: post) with
          | none => none
          | some (pre, post) => some (a :: pre, post) := by
        simp only [List.cons_append, breakAtColon, if_neg ha, List.append_eq]
      rw [e, ih has]

/-! ## Small helpers about the accumulator operations -/

theorem mk_data_eq (s : String) : String.mk s.data = s := rfl

theorem map_eq_self_of {α : Type} {f : α → α} :
    ∀ {l : List α}, (∀ x ∈ l, f x = x) → l.map f = l := by
  intro l
  induction l with
  | nil => intro _; rfl
  | cons x xs ih =>
      intro h
      rw [List.map_cons, h x (List.mem_cons_self x xs), ih fun y hy => h y (List.mem_cons_of_mem x hy)]

theorem addAttr_of_not_mem {u : Entry} {k : String} (v : String)
    (h : ∀ p ∈ u, p.1 ≠ k) : addAttr u k v = u ++ [(k, [v])] := by
  unfold addAttr
  rw [if_neg]
  intro hany
  rw [List.any_eq_true] at hany
  obtain ⟨p, hp, hpk⟩ := hany
  exact h p hp (by simpa using hpk)

theorem addAttr_of_mem_unique {pfx sfx : List (String × List String)} {k : String}
    {vs : List String} (v : String)
    (h1 : ∀ q ∈ pfx, q.1 ≠ k) (h2 : ∀ q ∈ sfx, q.1 ≠ k) :
    addAttr (pfx ++ (k, vs) :: sfx) k v = pfx ++ (k, vs ++ [v]) :: sfx := by
  unfold addAttr
  have hany : (pfx ++ (k, vs) :: sfx).any (fun p => p.1 == k) = true := by
    rw [List.any_eq_true]
    exact ⟨(k, vs), by simp, by simp⟩
  rw [if_pos hany, List.map_append, List.map_cons]
  have e1 : pfx.map (fun p => if p.1 == k then (p.1, p.2 ++ [v]) else p) = pfx :=
    map_eq_self_of fun q hq => by
      rw [if_neg]
      simp [h1 q hq]
  have e2 : sfx.map (fun p => if p.1 == k then (p.1, p.2 ++ [v]) else p) = sfx :=
    map_eq_self_of fun q hq => by
      rw [if_neg]
      simp [h2 q hq]
  rw [e1, e2]
  simp

theorem appendLastVal_eq {vs : List String} (s : String) (h : vs ≠ []) :
    appendLastVal vs s = vs.dropLast ++ [vs.getLast?.getD "" ++ " " ++ s] := by
  induction vs with
  | nil => exact absurd rfl h
  | cons v rest ih =>
      rcases rest with _ | ⟨w, ws⟩
      · simp [appendLastVal]
      · rw [show appendLastVal (v :: w :: ws) s = v :: appendLastVal (w :: ws) s from rfl,
          ih (by simp)]
        simp [List.getLast?_cons_cons]

theorem appendCont_eq {u : Entry} {k : String} {vs : List String} (s : String)
    (h : u.getLast? = some (k, vs)) :
    appendCont u s = u.dropLast ++ [(k, appendLastVal vs s)] := by
  induction u with
  | nil => simp at h
  | cons p rest ih =>
      rcases rest with _ | ⟨q, qs⟩
      · simp at h
        rw [show p = (k, vs) from by rw [h]]
        rfl
      · rw [show appendCont (p :: q :: qs) s = p :: appendCont (q :: qs) s from rfl]
        rw [List.getLast?_cons_cons] at h
        rw [ih h]
        simp

/-! ## Trimmed strings and the shape of serialized attribute lines -/

theorem head_false_of_dropWhile_eq {p : Char → Bool} {l : List Char}
    (h : List.dropWhile p l = l) {c : Char} (hc : l.head? = some c) : p c = false := by
  rcases l with _ | ⟨x, xs⟩
  · simp at hc
  · have hx : x = c := by simpa using hc
    subst hx
    cases hpx : p x with
    | false => rfl
    | true =>
        rw [List.dropWhile_cons, hpx] at h
        simp only [if_true] at h
        have hle := (List.dropWhile_sublist (l := xs) p).length_le
        rw [h] at hle
        simp at hle

theorem IsTrimmed.head_false {s : String} (h : IsTrimmed s) {c : Char}
    (hc : s.data.head? = some c) : isWS c = false :=
  head_false_of_dropWhile_eq h.drop_front hc

theorem IsTrimmed.last_false {s : String} (h : IsTrimmed s) {c : Char}
    (hc : s.data.getLast? = some c) : isWS c = false :=
  head_false_of_dropWhile_eq h.drop_back (by rw [List.head?_reverse]; exact hc)

theorem stripChars_eq_self_of_ends {l : List Char}
    (h1 : ∀ c, l.head? = some c → isWS c = false)
    (h2 : ∀ c, l.reverse.head? = some c → isWS c = false) :
    stripChars l = l := by
  unfold stripChars
  rw [dropWhile_eq_self_of_head? h1, dropWhile_eq_self_of_head? h2, List.reverse_reverse]

theorem stripChars_space_val {v : String} (hv : IsTrimmed v) :
    stripChars (' ' :: v.data) = v.data := by
  unfold stripChars
  have h1 : List.dropWhile isWS (' ' :: v.data) = List.dropWhile isWS v.data := by
    rw [List.dropWhile_cons, show isWS ' ' = true from by decide]
    simp only [if_true]
  rw [h1, hv.drop_front, hv.drop_back, List.reverse_reverse]

theorem stripChars_line_of_ne {k v : String} (hk : IsTrimmed k) (hv : IsTrimmed v)
    (hvne : v.data ≠ []) :
    stripChars (k.data ++ ':' :: ' ' :: v.data) = k.data ++ ':' :: ' ' :: v.data := by
  apply stripChars_eq_self_of_ends
  · intro c hc
    rcases hkd : k.data with _ | ⟨a, as⟩
    · rw [hkd] at hc
      simp at hc
      rw [← hc]
      decide
    · rw [hkd] at hc
      simp at hc
      rw [← hc]
      exact hk.head_false (by rw [hkd]; rfl)
  · intro c hc
    rw [List.head?_reverse, List.getLast?_append] at hc
    rcases hvd : v.data with _ | ⟨b, bs⟩
    · exact absurd hvd hvne
    · rw [hvd, List.getLast?_cons_cons, List.getLast?_cons_cons] at hc
      rcases hgl : (b :: bs).getLast? with _ | d
      · simp at hgl
      · rw [hgl] at hc
        simp [Option.or] at hc
        rw [← hc]
        exact hv.last_false (by rw [hvd]; exact hgl)

theorem stripChars_line_of_nil {k : String} (hk : IsTrimmed k) :
    stripChars (k.data ++ [':', ' ']) = k.data ++ [':'] := by
  unfold stripChars
  have h1 : List.dropWhile isWS (k.data ++ [':', ' ']) = k.data ++ [':', ' '] := by
    apply dropWhile_eq_self_of_head?
    intro c hc
    rcases hkd : k.data with _ | ⟨a, as⟩
    · rw [hkd] at hc
      simp at hc
      rw [← hc]
      decide
    · rw [hkd] at hc
      simp at hc
      rw [← hc]
      exact hk.head_false (by rw [hkd]; rfl)
  rw [h1]
  have h2 : (k.data ++ [':', ' ']).reverse = ' ' :: ':' :: k.data.reverse := by simp
  rw [h2]
  have h3 : List.dropWhile isWS (' ' :: ':' :: k.data.reverse) = ':' :: k.data.reverse := by
    rw [List.dropWhile_cons, show isWS ' ' = true from by decide]
    simp only [if_true]
    exact dropWhile_cons_neg (by decide)
  rw [h3]
  simp

/-! ## Serialization (the round-trip direction of claim C7) -/

/-- One `"key: value"` line per attribute (first value of each), each
line terminated by `'\n'`, followed by one blank line: the re-serialized
form of an entry used by the round-trip property. -/
def serializeChars : Entry → List Char
  | [] => ['\n']
  | (k, vs) :: rest =>
      (k.data ++ ':' :: ' ' :: (vs.headD "").data) ++ '\n' :: serializeChars rest

/-- The re-serialized entry as a string. -/
def serializeEntry (e : Entry) : String := String.mk (serializeChars e)

theorem stepLine_of_break (us : List Entry) (cur : Entry) (raw : String)
    {pre post : List Char}
    (hne : strip raw ≠ "")
    (hb : breakAtColon (strip raw).data = some (pre, post)) :
    stepLine (us, cur) raw =
      (us, addAttr cur (strip (String.mk pre)) (strip (String.mk post))) := by
  simp only [stepLine]
  rw [if_neg hne, hb]

theorem stepLine_attr (us : List Entry) (cur : Entry) (k v : String)
    (hk1 : IsTrimmed k) (hk2 : ':' ∉ k.data) (hv1 : IsTrimmed v) :
    stepLine (us, cur) (String.mk (k.data ++ ':' :: ' ' :: v.data)) =
      (us, addAttr cur k v) := by
  have hkey : strip (String.mk k.data) = k := by
    show String.mk (stripChars k.data) = k
    rw [hk1.data_eq, mk_data_eq]
  rcases hvd : v.data with _ | ⟨b, bs⟩
  · -- empty value: the line strips to `key ++ ":"`
    have hv0 : v = "" := by
      have := congrArg String.mk hvd
      rw [mk_data_eq] at this
      exact this
    have hdata : (strip (String.mk (k.data ++ [':', ' ']))).data = k.data ++ [':'] := by
      show stripChars (k.data ++ [':', ' ']) = _
      exact stripChars_line_of_nil hk1
    have hne : strip (String.mk (k.data ++ [':', ' '])) ≠ "" := by
      intro h
      have h2 : (k.data ++ [':'] : List Char) = [] := by rw [← hdata, h]
      simp at h2
    have hb : breakAtColon (strip (String.mk (k.data ++ [':', ' ']))).data =
        some (k.data, []) := by
      rw [hdata]
      exact breakAtColon_append [] hk2
    rw [stepLine_of_break us cur _ hne hb, hkey, hv0]
    rfl
  · -- non-empty value: the line strips to itself
    rw [← hvd]
    have hvne : v.data ≠ [] := by rw [hvd]; simp
    have hdata : (strip (String.mk (k.data ++ ':' :: ' ' :: v.data))).data =
        k.data ++ ':' :: ' ' :: v.data := by
      show stripChars (k.data ++ ':' :: ' ' :: v.data) = _
      exact stripChars_line_of_ne hk1 hv1 hvne
    have hne : strip (String.mk (k.data ++ ':' :: ' ' :: v.data)) ≠ "" := by
      intro h
      have h2 : (k.data ++ ':' :: ' ' :: v.data : List Char) = [] := by
        rw [← hdata, h]
      simp at h2
    have hb : breakAtColon (strip (String.mk (k.data ++ ':' :: ' ' :: v.data))).data =
        some (k.data, ' ' :: v.data) := by
      rw [hdata]
      exact breakAtColon_append (' ' :: v.data) hk2
    have hval : strip (String.mk (' ' :: v.data)) = v := by
      show String.mk (stripChars (' ' :: v.data)) = v
      rw [stripChars_space_val hv1, mk_data_eq]
    rw [stepLine_of_break us cur _ hne hb, hkey, hval]

theorem split_serializeChars :
    ∀ {e : Entry}, (∀ p ∈ e, '\n' ∉ p.1.data ∧ '\n' ∉ (p.2.headD "").data) →
      splitOnChar '\n' (serializeChars e) =
        e.map (fun p => p.1.data ++ ':' :: ' ' :: (p.2.headD "").data) ++ [[], []] := by
  intro e
  induction e with
  | nil =>
      intro _
      show splitOnChar '\n' ['\n'] = [[], []]
      decide
  | cons p rest ih =>
      intro h
      obtain ⟨hk, hv⟩ := h p (List.mem_cons_self p rest)
      rcases p with ⟨k, vs⟩
      show splitOnChar '\n'
          ((k.data ++ ':' :: ' ' :: (vs.headD "").data) ++ '\n' :: serializeChars rest) = _
      rw [splitOnChar_append (serializeChars rest)]
      · rw [ih fun q hq => h q (List.mem_cons_of_mem _ hq)]
        simp
      · intro m
        rcases List.mem_append.mp m with m1 | m2
        · exact hk m1
        · rcases List.mem_cons.mp m2 with e1 | m3
          · exact absurd e1.symm (by decide)
          · rcases List.mem_cons.mp m3 with e2 | m4
            · exact absurd e2.symm (by decide)
            · exact hv m4

theorem foldl_attr_lines :
    ∀ (e : Entry) (us : List Entry) (cur : Entry),
      (∀ p ∈ e, ∃ w, p.2 = [w]) →
      (∀ p ∈ e, IsTrimmed p.1 ∧ ':' ∉ p.1.data) →
      (∀ p ∈ e, IsTrimmed (p.2.headD "")) →
      (∀ p ∈ e, ∀ q ∈ cur, q.1 ≠ p.1) →
      (e.map Prod.fst).Nodup →
      List.foldl stepLine (us, cur)
        (e.map (fun p => String.mk (p.1.data ++ ':' :: ' ' :: (p.2.headD "").data))) =
      (us, cur ++ e) := by
  intro e
  induction e with
  | nil =>
      intro us cur _ _ _ _ _
      simp
  | cons p rest ih =>
      intro us cur hsv hkey hval hdisj hnd
      rcases p with ⟨k, vs⟩
      obtain ⟨w, hw⟩ := hsv (k, vs) (List.mem_cons_self _ _)
      have hw' : vs = [w] := hw
      have hhd : vs.headD "" = w := by rw [hw']; rfl
      simp only [List.map_cons, List.foldl_cons]
      rw [hhd]
      rw [stepLine_attr us cur k w (hkey _ (List.mem_cons_self _ _)).1
        (hkey _ (List.mem_cons_self _ _)).2 (hhd ▸ hval _ (List.mem_cons_self _ _))]
      rw [addAttr_of_not_mem w fun q hq => hdisj _ (List.mem_cons_self _ _) q hq]
      have hndk : (k :: List.map Prod.fst rest).Nodup := by simpa using hnd
      have hknotin : ∀ p' ∈ rest, (k : String) ≠ p'.1 := by
        intro p' hp' he
        exact (List.nodup_cons.mp hndk).1 (by rw [he]; exact List.mem_map_of_mem Prod.fst hp')
      have hres := ih us (cur ++ [(k, [w])])
        (fun q hq => hsv q (List.mem_cons_of_mem _ hq))
        (fun q hq => hkey q (List.mem_cons_of_mem _ hq))
        (fun q hq => hval q (List.mem_cons_of_mem _ hq))
        (fun q hq r hr => by
          rcases List.mem_append.mp hr with h1 | h2
          · exact hdisj q (List.mem_cons_of_mem _ hq) r h1
          · rw [List.mem_singleton.mp h2]
            exact hknotin q hq)
        (List.nodup_cons.mp hndk).2
      rw [hres, hw']
      simp

theorem stepLine_no_colon (st : List Entry × Entry) (raw : String)
    (hne : strip raw ≠ "") (hb : breakAtColon (strip raw).data = none) :
    stepLine st raw =
      match st.2.getLast? with
      | some (k, _) => if k = "" then st else (st.1, appendCont st.2 (strip (strip raw)))
      | none => st := by
  simp only [stepLine]
  rw [if_neg hne, hb]

/-- Claim C7, round-trip: an entry whose attributes are all single-valued with
trimmed, colon-free, newline-free keys and trimmed, newline-free values
(as every continuation-free, single-valued entry produced by
`parse_ldap_output` is — such entries are non-empty with distinct keys)
serializes to `"key: value"` lines plus a blank separator and re-parses
to exactly that one equal entry. -/
theorem C7_roundtrip (e : Entry)
    (hne : e ≠ [])
    (hnd : (e.map Prod.fst).Nodup)
    (hsv : ∀ p ∈ e, ∃ w, p.2 = [w])
    (hkeys : ∀ p ∈ e, IsTrimmed p.1 ∧ ':' ∉ p.1.data ∧ '\n' ∉ p.1.data)
    (hvals : ∀ p ∈ e, ∀ w ∈ p.2, IsTrimmed w ∧ '\n' ∉ w.data) :
    parse_ldap_output (serializeEntry e) = [e] := by
  have hvals' : ∀ p ∈ e, IsTrimmed (p.2.headD "") ∧ '\n' ∉ (p.2.headD "").data := by
    intro p hp
    obtain ⟨w, hw⟩ := hsv p hp
    rw [hw]
    exact hvals p hp w (by rw [hw]; exact List.mem_singleton.mpr rfl)
  unfold parse_ldap_output serializeEntry
  rw [show (String.mk (serializeChars e)).data = serializeChars e from rfl]
  rw [split_serializeChars (fun p hp => ⟨(hkeys p hp).2.2, (hvals' p hp).2⟩)]
  rw [List.map_append, List.map_map]
  rw [show (List.map String.mk [[], []] : List String) = ["", ""] from rfl]
  rw [show (String.mk ∘ fun p : String × List String =>
      p.1.data ++ ':' :: ' ' :: (p.2.headD "").data) =
      (fun p : String × List String =>
        String.mk (p.1.data ++ ':' :: ' ' :: (p.2.headD "").data)) from rfl]
  unfold parseLines
  rw [List.foldl_append]
  rw [foldl_attr_lines e [] [] hsv (fun p hp => ⟨(hkeys p hp).1, (hkeys p hp).2.1⟩)
    (fun p hp => (hvals' p hp).1) (fun p hp q hq => absurd hq (List.not_mem_nil q)) hnd]
  have hblank : ∀ (st : List Entry × Entry), stepLine st "" =
      (if st.2 = [] then st.1 else st.1 ++ [st.2], []) := by
    intro st
    simp only [stepLine]
    rw [if_pos (show strip "" = "" from rfl)]
  rw [List.foldl_cons, hblank, List.foldl_cons, hblank, List.foldl_nil]
  simp [hne]

/-- Witness for C7: a concrete single-valued entry round-trips. -/
theorem C7_roundtrip_witness :
    parse_ldap_output (serializeEntry [("cn", ["Alice"]), ("info", ["x y"])]) =
      [[("cn", ["Alice"]), ("info", ["x y"])]] :=
  C7_roundtrip _ (by decide) (by decide)
    (by
      intro p hp
      rcases List.mem_cons.mp hp with h | h
      · exact ⟨"Alice", by rw [h]⟩
      · exact ⟨"x y", by rw [List.mem_singleton.mp h]⟩)
    (by decide) (by decide)

/-- Claim C6: an attribute line is split at its first colon, key and value are
trimmed, and the pair is accumulated: a new key is appended at the end,
an existing key keeps its position and gains the value at the end of its
sequence; in particular, `"mail: a@x.com\nmail: b@x.com\n\n"` parses to
one entry mapping `mail` to `["a@x.com", "b@x.com"]`. -/
theorem C6_attribute_lines :
    (∀ (st : List Entry × Entry) (raw : String) (pre post : List Char),
        strip raw ≠ "" →
        breakAtColon (strip raw).data = some (pre, post) →
        (pre ++ ':' :: post = (strip raw).data ∧ ':' ∉ pre) ∧
        stepLine st raw =
          (st.1, addAttr st.2 (strip (String.mk pre)) (strip (String.mk post))) ∧
        (∀ k v : String, (∀ q ∈ st.2, q.1 ≠ k) → addAttr st.2 k v = st.2 ++ [(k, [v])]) ∧
        (∀ (k v : String) (pfx sfx : Entry) (vs : List String),
            st.2 = pfx ++ (k, vs) :: sfx →
            (∀ q ∈ pfx, q.1 ≠ k) → (∀ q ∈ sfx, q.1 ≠ k) →
            addAttr st.2 k v = pfx ++ (k, vs ++ [v]) :: sfx)) ∧
    parse_ldap_output "mail: a@x.com\nmail: b@x.com\n\n" =
      [[("mail", ["a@x.com", "b@x.com"])]] := by
  constructor
  · intro st raw pre post hne hb
    refine ⟨breakAtColon_sound hb, ?_, ?_, ?_⟩
    · exact stepLine_of_break st.1 st.2 raw hne hb
    · intro k v h
      exact addAttr_of_not_mem v h
    · intro k v pfx sfx vs hst h1 h2
      rw [hst]
      exact addAttr_of_mem_unique v h1 h2
  · decide

/-- Witness for C6: a repeated `mail` attribute line appends its value to
the existing key. -/
theorem C6_attribute_lines_witness :
    stepLine (([], [("mail", ["a@x.com"])]) : List Entry × Entry) "mail: b@x.com" =
      ([], [("mail", ["a@x.com", "b@x.com"])]) := by
  have h := (C6_attribute_lines).1 ([], [("mail", ["a@x.com"])]) "mail: b@x.com"
    ['m', 'a', 'i', 'l'] [' ', 'b', '@', 'x', '.', 'c', 'o', 'm'] (by decide) (by decide)
  rw [h.2.1]
  have h2 := h.2.2.2 "mail" "b@x.com" [] [] ["a@x.com"] rfl
    (fun q hq => absurd hq (List.not_mem_nil q)) (fun q hq => absurd hq (List.not_mem_nil q))
  rw [show strip (String.mk ['m', 'a', 'i', 'l']) = "mail" from by decide,
    show strip (String.mk [' ', 'b', '@', 'x', '.', 'c', 'o', 'm']) = "b@x.com" from by decide]
  rw [h2]
  rfl

/-- Counterexample to claim C5: on `": v\nx\n"` the accumulator holds one
recorded attribute (the empty-string key, from the line `": v"`) when
the colon-free line `"x"` arrives, yet the parser discards the line
instead of appending `" x"` to the last value: the guard
`if user and list(user.keys())[-1]:` also requires the most recently
inserted key to be a non-empty (truthy) string. -/
theorem C5_counterexample :
    parse_ldap_output ": v\nx\n" = [[("", ["v"])]] ∧
      parse_ldap_output ": v\nx\n" ≠ [[("", ["v x"])]] := by
  decide

/-- Claim C5 as amended: a colon-free, non-blank line is discarded when the
accumulator is empty **or when its most recently inserted key is the
empty string**; otherwise it extends the last value of the most recently
inserted key with a space and the trimmed line content.  The
continuation example of the claim holds as stated. -/
theorem C5_continuation_rule :
    (∀ (st : List Entry × Entry) (raw : String),
        strip raw ≠ "" →
        breakAtColon (strip raw).data = none →
        (st.2 = [] → stepLine st raw = st) ∧
        (∀ vs, st.2.getLast? = some ("", vs) → stepLine st raw = st) ∧
        (∀ k vs, st.2.getLast? = some (k, vs) → k ≠ "" → vs ≠ [] →
            stepLine st raw =
              (st.1, st.2.dropLast ++
                [(k, vs.dropLast ++ [vs.getLast?.getD "" ++ " " ++ strip raw])]))) ∧
    parse_ldap_output "description: Long te\n xt here\n\n" =
      [[("description", ["Long te xt here"])]] := by
  constructor
  · intro st raw hne hb
    have hstep := stepLine_no_colon st raw hne hb
    refine ⟨?_, ?_, ?_⟩
    · intro h2
      rw [hstep, h2]
      rfl
    · intro vs h
      rw [hstep, h]
      show (if ("" : String) = "" then st else (st.1, appendCont st.2 (strip (strip raw)))) = st
      rw [if_pos rfl]
    · intro k vs h hk hvs
      rw [hstep, h]
      show (if k = "" then st else (st.1, appendCont st.2 (strip (strip raw)))) = _
      rw [if_neg hk, strip_strip, appendCont_eq (strip raw) h, appendLastVal_eq (strip raw) hvs]
  · decide

/-- Witness for C5: a continuation line extends the last value of the last
(non-empty) key. -/
theorem C5_continuation_rule_witness :
    stepLine (([], [("description", ["Long te"])]) : List Entry × Entry) " xt here" =
      ([], [("description", ["Long te xt here"])]) := by
  have h := ((C5_continuation_rule).1 ([], [("description", ["Long te"])]) " xt here"
      (by decide) (by decide)).2.2 "description" ["Long te"] (by decide) (by decide) (by decide)
  rw [h]
  rfl

/-! ## Lemmas about the classifier -/

theorem contains_eq_false_iff {l : List String} {a : String} :
    l.contains a = false ↔ a ∉ l := by
  rw [← Bool.not_eq_true, not_iff_not]
  exact List.elem_iff

theorem classifyEntry_eq_filterMap (fc : String → Nat) (total : Nat) (thr : Nat × Nat)
    (excl : List String) :
    ∀ u : Entry, classifyEntry fc total thr excl u = u.filterMap (fun p =>
      if excl.contains p.1 = false ∧
          (standard_ldap_fields.contains p.1 = false ∨ belowFrac (fc p.1) total thr) then
        some (p.1,
          (if standard_ldap_fields.contains p.1 = false then "Non-Standard Field"
           else "Rare Standard Field"), p.2)
      else none) := by
  intro u
  induction u with
  | nil => rfl
  | cons p rest ih =>
      rcases p with ⟨g, ws⟩
      by_cases hg : excl.contains g = false ∧
          (standard_ldap_fields.contains g = false ∨ belowFrac (fc g) total thr)
      · simp only [classifyEntry, List.filterMap_cons, if_pos hg, ih]
      · simp only [classifyEntry, List.filterMap_cons, if_neg hg, ih]

theorem classifyEntry_mem_not_excl {fc : String → Nat} {total : Nat} {thr : Nat × Nat}
    {excl : List String} {u : Entry} {x : String × String × List String}
    (h : x ∈ classifyEntry fc total thr excl u) : excl.contains x.1 = false := by
  rw [classifyEntry_eq_filterMap] at h
  obtain ⟨p, _, hpx⟩ := List.mem_filterMap.mp h
  by_cases hc : excl.contains p.1 = false ∧
      (standard_ldap_fields.contains p.1 = false ∨ belowFrac (fc p.1) total thr)
  · rw [if_pos hc] at hpx
    have := Option.some.inj hpx
    rw [← this]
    exact hc.1
  · rw [if_neg hc] at hpx
    exact absurd hpx (by simp)

theorem classifyEntry_rare_mem_iff {fc : String → Nat} {total : Nat} {thr : Nat × Nat}
    {excl : List String} {u : Entry} {f : String} {vs : List String} :
    (f, "Rare Standard Field", vs) ∈ classifyEntry fc total thr excl u ↔
      ∃ p ∈ u, p.1 = f ∧ p.2 = vs ∧ excl.contains f = false ∧
        standard_ldap_fields.contains f = true ∧ belowFrac (fc f) total thr := by
  rw [classifyEntry_eq_filterMap, List.mem_filterMap]
  constructor
  · rintro ⟨p, hp, hpx⟩
    by_cases hc : excl.contains p.1 = false ∧
        (standard_ldap_fields.contains p.1 = false ∨ belowFrac (fc p.1) total thr)
    · rw [if_pos hc] at hpx
      have hx := Option.some.inj hpx
      have hf : p.1 = f := congrArg Prod.fst hx
      have hlab : (if standard_ldap_fields.contains p.1 = false then "Non-Standard Field"
          else "Rare Standard Field") = "Rare Standard Field" :=
        congrArg (fun y => y.2.1) hx
      have hvs : p.2 = vs := congrArg (fun y => y.2.2) hx
      by_cases hstd : standard_ldap_fields.contains p.1 = false
      · rw [if_pos hstd] at hlab
        exact absurd hlab (by decide)
      · have hstd' : standard_ldap_fields.contains p.1 = true := by
          revert hstd
          cases standard_ldap_fields.contains p.1 <;> simp
        exact ⟨p, hp, hf, hvs, hf ▸ hc.1, hf ▸ hstd', hf ▸ (hc.2.resolve_left hstd)⟩
    · rw [if_neg hc] at hpx
      exact absurd hpx (by simp)
  · rintro ⟨p, hp, h1, h2, h3, h4, h5⟩
    refine ⟨p, hp, ?_⟩
    have hc : excl.contains p.1 = false ∧
        (standard_ldap_fields.contains p.1 = false ∨ belowFrac (fc p.1) total thr) := by
      rw [h1]
      exact ⟨h3, Or.inr h5⟩
    rw [if_pos hc, h1, h2]
    rw [show (if standard_ldap_fields.contains f = false then "Non-Standard Field"
        else "Rare Standard Field") = "Rare Standard Field" from by rw [h4]; rfl]

theorem classifyEntry_eq_nil_of {fc : String → Nat} {total : Nat} {thr : Nat × Nat}
    {excl : List String} {u : Entry}
    (h : ∀ p ∈ u, p.1 ∈ excl ∨
      (p.1 ∈ standard_ldap_fields ∧ ¬ belowFrac (fc p.1) total thr)) :
    classifyEntry fc total thr excl u = [] := by
  induction u with
  | nil => rfl
  | cons p rest ih =>
      rcases p with ⟨g, ws⟩
      have hng : ¬(excl.contains g = false ∧
          (standard_ldap_fields.contains g = false ∨ belowFrac (fc g) total thr)) := by
        rcases h (g, ws) (List.mem_cons_self _ _) with hex | ⟨hstd, hbel⟩
        · rintro ⟨h1, _⟩
          exact (contains_eq_false_iff.mp h1) hex
        · rintro ⟨_, h2 | h2⟩
          · exact (contains_eq_false_iff.mp h2) hstd
          · exact hbel h2
      simp only [classifyEntry, if_neg hng]
      exact ih fun q hq => h q (List.mem_cons_of_mem _ hq)

theorem setAttr_mem {r : CResult} {k lab : String} {vs : List String}
    {x : String × String × List String} (h : x ∈ setAttr r k lab vs) :
    x ∈ r ∨ x = (k, lab, vs) := by
  unfold setAttr at h
  by_cases hany : r.any (fun p => p.1 == k) = true
  · rw [if_pos hany] at h
    obtain ⟨y, hy, hyx⟩ := List.mem_map.mp h
    by_cases hyk : y.1 == k
    · rw [if_pos hyk] at hyx
      exact Or.inr hyx.symm
    · rw [if_neg hyk] at hyx
      exact Or.inl (hyx ▸ hy)
  · rw [if_neg hany] at h
    rcases List.mem_append.mp h with h1 | h2
    · exact Or.inl h1
    · exact Or.inr (List.mem_singleton.mp h2)

theorem setAttr_mem_self {r : CResult} (k lab : String) (vs : List String) :
    (k, lab, vs) ∈ setAttr r k lab vs := by
  unfold setAttr
  by_cases hany : r.any (fun p => p.1 == k) = true
  · rw [if_pos hany]
    obtain ⟨y, hy, hyk⟩ := List.any_eq_true.mp hany
    refine List.mem_map.mpr ⟨y, hy, ?_⟩
    rw [if_pos hyk]
  · rw [if_neg hany]
    exact List.mem_append.mpr (Or.inr (List.mem_singleton.mpr rfl))

theorem setAttr_preserve {r : CResult} {x : String × String × List String}
    (hx : x ∈ r) (k lab : String) (vs : List String)
    (hcanon : x.1 = k → x = (k, lab, vs)) :
    x ∈ setAttr r k lab vs := by
  unfold setAttr
  by_cases hany : r.any (fun p => p.1 == k) = true
  · rw [if_pos hany]
    refine List.mem_map.mpr ⟨x, hx, ?_⟩
    by_cases hxk : x.1 == k
    · rw [if_pos hxk]
      exact (hcanon (by simpa using hxk)).symm
    · rw [if_neg hxk]
  · rw [if_neg hany]
    exact List.mem_append.mpr (Or.inl hx)

theorem includeMerge_mem {u : Entry} {base : CResult}
    {x : String × String × List String} :
    ∀ {incl : List String}, x ∈ includeMerge u incl base →
      x ∈ base ∨ (x.2.1 = "Included Field" ∧ x.1 ∈ incl) := by
  have main : ∀ (incl : List String) (acc : CResult), x ∈ incl.foldl
      (fun r f => if hasField u f then setAttr r f "Included Field" (getValues u f) else r)
      acc → x ∈ acc ∨ (x.2.1 = "Included Field" ∧ x.1 ∈ incl) := by
    intro incl
    induction incl with
    | nil =>
        intro acc h
        exact Or.inl h
    | cons g gs ih =>
        intro acc h
        rw [List.foldl_cons] at h
        rcases ih _ h with h1 | ⟨h2, h3⟩
        · by_cases hg : hasField u g = true
          · rw [if_pos hg] at h1
            rcases setAttr_mem h1 with h4 | h4
            · exact Or.inl h4
            · refine Or.inr ⟨by rw [h4], by rw [h4]; exact List.mem_cons_self _ _⟩
          · rw [if_neg hg] at h1
            exact Or.inl h1
        · exact Or.inr ⟨h2, List.mem_cons_of_mem _ h3⟩
  intro incl h
  exact main incl base h

theorem buildIncludeAll_mem_iff {u : Entry} {ia : List String} {f lab : String}
    {vs : List String} :
    (f, lab, vs) ∈ buildIncludeAll u ia ↔
      (f ∈ ia ∧ hasField u f = true ∧ lab = "Include-All Field" ∧ vs = getValues u f) := by
  have fwd : ∀ (fs : List String) (acc : CResult), (f, lab, vs) ∈ fs.foldl
      (fun r g => if hasField u g then setAttr r g "Include-All Field" (getValues u g) else r)
      acc → (f, lab, vs) ∈ acc ∨
        (f ∈ fs ∧ hasField u f = true ∧ lab = "Include-All Field" ∧ vs = getValues u f) := by
    intro fs
    induction fs with
    | nil => intro acc h; exact Or.inl h
    | cons g gs ih =>
        intro acc h
        rw [List.foldl_cons] at h
        rcases ih _ h with h1 | ⟨h2, h3⟩
        · by_cases hg : hasField u g = true
          · rw [if_pos hg] at h1
            rcases setAttr_mem h1 with h4 | h4
            · exact Or.inl h4
            · have hf : f = g := congrArg Prod.fst h4
              refine Or.inr ⟨hf ▸ List.mem_cons_self _ _, hf ▸ hg,
                congrArg (fun y => y.2.1) h4, ?_⟩
              have := congrArg (fun y => y.2.2) h4
              simpa [hf] using this
          · rw [if_neg hg] at h1
            exact Or.inl h1
        · exact Or.inr ⟨List.mem_cons_of_mem _ h2, h3⟩
  have preserve : ∀ (fs : List String) (acc : CResult),
      (f, "Include-All Field", getValues u f) ∈ acc →
      (f, "Include-All Field", getValues u f) ∈ fs.foldl
        (fun r g => if hasField u g then setAttr r g "Include-All Field" (getValues u g) else r)
        acc := by
    intro fs
    induction fs with
    | nil => intro acc h; exact h
    | cons g gs ih =>
        intro acc h
        rw [List.foldl_cons]
        apply ih
        by_cases hg : hasField u g = true
        · rw [if_pos hg]
          apply setAttr_preserve h
          intro hfg
          rw [show f = g from hfg]
        · rw [if_neg hg]
          exact h
  have ins : ∀ (fs : List String) (acc : CResult), f ∈ fs → hasField u f = true →
      (f, "Include-All Field", getValues u f) ∈ fs.foldl
        (fun r g => if hasField u g then setAttr r g "Include-All Field" (getValues u g) else r)
        acc := by
    intro fs
    induction fs with
    | nil => intro acc h; exact absurd h (List.not_mem_nil f)
    | cons g gs ih =>
        intro acc hmem hfld
        rw [List.foldl_cons]
        rcases List.mem_cons.mp hmem with heq | hmem2
        · apply preserve
          rw [← heq, if_pos hfld]
          exact setAttr_mem_self f "Include-All Field" (getValues u f)
        · exact ih _ hmem2 hfld
  constructor
  · intro h
    rcases fwd ia [] h with h1 | h1
    · exact absurd h1 (List.not_mem_nil _)
    · exact h1
  · rintro ⟨h1, h2, h3, h4⟩
    rw [h3, h4]
    exact ins ia [] h1 h2

theorem fns_step_fst (fc : String → Nat) (tot : Nat) (thr : Nat × Nat)
    (excl incl ia : List String) (acc : List (String × CResult) × List (String × CResult))
    (u : Entry) :
    (fns_step fc tot thr excl incl ia acc u).1 =
      if getUsername u = "Unknown" ∧ hasField u "description" = false then acc.1
      else if classifyEntry fc tot thr excl u = [] then acc.1
      else acc.1 ++ [(getUsername u,
        includeMerge u incl (classifyEntry fc tot thr excl u))] := by
  unfold fns_step
  by_cases hskip : getUsername u = "Unknown" ∧ hasField u "description" = false
  · rw [if_pos hskip, if_pos hskip]
  · rw [if_neg hskip, if_neg hskip]

theorem fns_step_snd (fc : String → Nat) (tot : Nat) (thr : Nat × Nat)
    (excl incl ia : List String) (acc : List (String × CResult) × List (String × CResult))
    (u : Entry) :
    (fns_step fc tot thr excl incl ia acc u).2 =
      if getUsername u = "Unknown" ∧ hasField u "description" = false then acc.2
      else if ia ≠ [] ∧ ia.any (fun f => hasField u f) then
        acc.2 ++ [(getUsername u, buildIncludeAll u ia)]
      else acc.2 := by
  unfold fns_step
  by_cases hskip : getUsername u = "Unknown" ∧ hasField u "description" = false
  · rw [if_pos hskip, if_pos hskip]
  · rw [if_neg hskip, if_neg hskip]

theorem foldl_primary_mem {fc : String → Nat} {tot : Nat} {thr : Nat × Nat}
    {excl incl ia : List String} :
    ∀ {us : List Entry} {acc : List (String × CResult) × List (String × CResult)}
      {x : String × CResult},
      x ∈ (us.foldl (fns_step fc tot thr excl incl ia) acc).1 →
      x ∈ acc.1 ∨ ∃ u ∈ us,
        ¬(getUsername u = "Unknown" ∧ hasField u "description" = false) ∧
        classifyEntry fc tot thr excl u ≠ [] ∧
        x = (getUsername u, includeMerge u incl (classifyEntry fc tot thr excl u)) := by
  intro us
  induction us with
  | nil => intro acc x h; exact Or.inl h
  | cons u rest ih =>
      intro acc x h
      rw [List.foldl_cons] at h
      rcases ih h with h1 | ⟨w, hw, hprop⟩
      · rw [fns_step_fst] at h1
        by_cases hskip : getUsername u = "Unknown" ∧ hasField u "description" = false
        · rw [if_pos hskip] at h1
          exact Or.inl h1
        · rw [if_neg hskip] at h1
          by_cases hbase : classifyEntry fc tot thr excl u = []
          · rw [if_pos hbase] at h1
            exact Or.inl h1
          · rw [if_neg hbase] at h1
            rcases List.mem_append.mp h1 with h2 | h2
            · exact Or.inl h2
            · exact Or.inr ⟨u, List.mem_cons_self _ _, hskip, hbase, List.mem_singleton.mp h2⟩
      · exact Or.inr ⟨w, List.mem_cons_of_mem _ hw, hprop⟩

theorem foldl_snd_mono {fc : String → Nat} {tot : Nat} {thr : Nat × Nat}
    {excl incl ia : List String} :
    ∀ {us : List Entry} {acc : List (String × CResult) × List (String × CResult)}
      {x : String × CResult},
      x ∈ acc.2 → x ∈ (us.foldl (fns_step fc tot thr excl incl ia) acc).2 := by
  intro us
  induction us with
  | nil => intro acc x h; exact h
  | cons u rest ih =>
      intro acc x h
      rw [List.foldl_cons]
      apply ih
      rw [fns_step_snd]
      by_cases hskip : getUsername u = "Unknown" ∧ hasField u "description" = false
      · rw [if_pos hskip]; exact h
      · rw [if_neg hskip]
        by_cases hia : ia ≠ [] ∧ ia.any (fun f => hasField u f)
        · rw [if_pos hia]
          exact List.mem_append.mpr (Or.inl h)
        · rw [if_neg hia]; exact h

theorem foldl_ia_mem {fc : String → Nat} {tot : Nat} {thr : Nat × Nat}
    {excl incl ia : List String} :
    ∀ {us : List Entry} (acc : List (String × CResult) × List (String × CResult))
      {u : Entry}, u ∈ us →
      ¬(getUsername u = "Unknown" ∧ hasField u "description" = false) →
      ia.any (fun f => hasField u f) = true →
      (getUsername u, buildIncludeAll u ia) ∈
        (us.foldl (fns_step fc tot thr excl incl ia) acc).2 := by
  intro us
  induction us with
  | nil => intro acc u h; exact absurd h (List.not_mem_nil u)
  | cons w rest ih =>
      intro acc u hmem hskip hany
      rw [List.foldl_cons]
      rcases List.mem_cons.mp hmem with heq | hmem2
      · subst heq
        apply foldl_snd_mono
        rw [fns_step_snd, if_neg hskip]
        have hia : ia ≠ [] := by
          intro hnil
          rw [hnil] at hany
          simp at hany
        rw [if_pos ⟨hia, hany⟩]
        exact List.mem_append.mpr (Or.inr (List.mem_singleton.mpr rfl))
      · exact ih _ hmem2 hskip hany

theorem list_users_step_eq (fc : String → Nat) (total : Nat)
    (acc : List (String × Tier) × Nat) (u : Entry) :
    list_users_step fc total acc u =
      if getUsername u = "Unknown" then acc
      else (acc.1 ++ [(getUsername u, userTier fc total u)], acc.2 + 1) := rfl

theorem foldl_list_users {fc : String → Nat} {total : Nat} :
    ∀ (us : List Entry) (p : List (String × Tier)) (n : Nat),
      us.foldl (list_users_step fc total) (p, n) =
        (p ++ us.filterMap (fun u => if getUsername u = "Unknown" then none
           else some (getUsername u, userTier fc total u)),
         n + (us.filterMap (fun u => if getUsername u = "Unknown" then none
           else some (getUsername u, userTier fc total u))).length) := by
  intro us
  induction us with
  | nil =>
      intro p n
      simp
  | cons u rest ih =>
      intro p n
      rw [List.foldl_cons, list_users_step_eq]
      by_cases hu : getUsername u = "Unknown"
      · rw [if_pos hu, ih]
        rw [List.filterMap_cons]
        rw [if_pos hu]
      · rw [if_neg hu, ih]
        rw [List.filterMap_cons]
        rw [if_neg hu]
        refine Prod.ext ?_ ?_
        · simp
        · simp
          omega

theorem list_users_eq (users : List Entry) (fc : String → Nat) :
    list_users users fc =
      (users.filterMap (fun u => if getUsername u = "Unknown" then none
         else some (getUsername u, userTier fc users.length u)),
       (users.filterMap (fun u => if getUsername u = "Unknown" then none
         else some (getUsername u, userTier fc users.length u))).length) := by
  unfold list_users
  rw [foldl_list_users]
  simp

/-- Counterexample to claim C1: the entry `{"weird": ["x"]}` possesses
the include-all attribute `"weird"`, yet the include-all output is
empty: the `continue` for unnamed, description-less entries skips the
include-all pass too, so the include-all output is *not* built
independently of the primary-pass skip rule. -/
theorem C1_counterexample :
    hasField [("weird", ["x"])] "weird" = true ∧
      (find_non_standard_fields [[("weird", ["x"])]] [] [] ["weird"] 2).2 = [] := by
  decide

/-- Claim C1 as amended: an entry skipped by the primary-pass rule
(display name `"Unknown"` and no `description`) contributes to neither
output; every *surviving* entry that possesses an include-all attribute
gets `(name, result)` appended to the include-all output, where the
result holds exactly the possessed include-all attributes labeled
`"Include-All Field"` (independent of exclude/include/threshold). -/
theorem C1_include_all_pass :
    ∀ (users : List Entry) (excl incl ia : List String) (level : Nat) (u : Entry),
      (∀ acc, getUsername u = "Unknown" → hasField u "description" = false →
        fns_step (fieldCount users) users.length (threshold_levels level) excl incl ia acc u
          = acc) ∧
      (u ∈ users → ¬(getUsername u = "Unknown" ∧ hasField u "description" = false) →
        ia.any (fun f => hasField u f) = true →
        (getUsername u, buildIncludeAll u ia) ∈
          (find_non_standard_fields users excl incl ia level).2) ∧
      (∀ (f lab : String) (vs : List String), (f, lab, vs) ∈ buildIncludeAll u ia ↔
        (f ∈ ia ∧ hasField u f = true ∧ lab = "Include-All Field" ∧
          vs = getValues u f)) := by
  intro users excl incl ia level u
  refine ⟨?_, ?_, ?_⟩
  · intro acc h1 h2
    unfold fns_step
    rw [if_pos ⟨h1, h2⟩]
  · intro hmem hskip hany
    unfold find_non_standard_fields
    exact foldl_ia_mem ([], []) hmem hskip hany
  · intro f lab vs
    exact buildIncludeAll_mem_iff

/-- Counterexample to claim C2: `mail` is in both the exclude-set and
the include-set and is possessed by the entry, yet it appears in the
entry's primary ClassificationResult, labeled `"Included Field"`: the
include merge is not filtered by the exclude-set. -/
theorem C2_counterexample :
    "mail" ∈ (["mail"] : List String) ∧
      hasField [("cn", ["A"]), ("weird", ["w"]), ("mail", ["m"])] "mail" = true ∧
      (find_non_standard_fields [[("cn", ["A"]), ("weird", ["w"]), ("mail", ["m"])]]
          ["mail"] ["mail"] [] 2).1 =
        [("A", [("weird", "Non-Standard Field", ["w"]),
                ("mail", "Included Field", ["m"])])] := by
  decide

/-- Claim C2 as amended: exclusion has precedence over the
non-standard/rare classification only: an excluded attribute never
appears in a primary ClassificationResult as `"Non-Standard Field"` or
`"Rare Standard Field"`; when it does appear it is an
`"Included Field"` coming from the include-set. -/
theorem C2_exclusion_of_classification :
    ∀ (users : List Entry) (excl incl ia : List String) (level : Nat)
      (name : String) (r : CResult) (f lab : String) (vs : List String),
      (name, r) ∈ (find_non_standard_fields users excl incl ia level).1 →
      (f, lab, vs) ∈ r →
      f ∈ excl →
      lab = "Included Field" ∧ f ∈ incl := by
  intro users excl incl ia level name r f lab vs hmem hr hex
  unfold find_non_standard_fields at hmem
  rcases foldl_primary_mem hmem with h1 | ⟨u, _, _, _, heq⟩
  · exact absurd h1 (List.not_mem_nil _)
  · rw [show r = includeMerge u incl (classifyEntry (fieldCount users) users.length
        (threshold_levels level) excl u) from congrArg Prod.snd heq] at hr
    rcases includeMerge_mem hr with h2 | ⟨h2, h3⟩
    · have := classifyEntry_mem_not_excl h2
      exact absurd hex (contains_eq_false_iff.mp this)
    · exact ⟨h2, h3⟩

/-- Witness for C2: at the counterexample input the one surfaced
excluded attribute is indeed an `"Included Field"` from the
include-set. -/
theorem C2_exclusion_witness :
    ("Included Field" : String) = "Included Field" ∧ "mail" ∈ (["mail"] : List String) :=
  C2_exclusion_of_classification [[("cn", ["A"]), ("weird", ["w"]), ("mail", ["m"])]]
    ["mail"] ["mail"] [] 2 "A"
    [("weird", "Non-Standard Field", ["w"]), ("mail", "Included Field", ["m"])]
    "mail" "Included Field" ["m"] (by decide) (by decide) (by decide)

/-- Claim C3, include-gating: an entry whose attributes, after
exclusion, contain no non-standard attribute and no standard attribute
with global frequency below `threshold × total`, contributes nothing to
the primary output — even when it possesses include-set attributes. -/
theorem C3_include_gating :
    ∀ (users : List Entry) (excl incl ia : List String) (level : Nat)
      (acc : List (String × CResult) × List (String × CResult)) (u : Entry),
      (∀ p ∈ u, p.1 ∈ excl ∨ (p.1 ∈ standard_ldap_fields ∧
        ¬ belowFrac (fieldCount users p.1) users.length (threshold_levels level))) →
      (fns_step (fieldCount users) users.length (threshold_levels level)
        excl incl ia acc u).1 = acc.1 := by
  intro users excl incl ia level acc u h
  rw [fns_step_fst]
  have hbase := classifyEntry_eq_nil_of h
  by_cases hskip : getUsername u = "Unknown" ∧ hasField u "description" = false
  · rw [if_pos hskip]
  · rw [if_neg hskip, if_pos hbase]

/-- Witness for C3: an all-standard, non-rare entry possessing the
include-set attribute `mail` yields no primary pair. -/
theorem C3_include_gating_witness :
    (fns_step (fieldCount [[("cn", ["A"]), ("mail", ["m"])]])
      [[("cn", ["A"]), ("mail", ["m"])]].length (threshold_levels 2)
      [] ["mail"] [] ([], []) [("cn", ["A"]), ("mail", ["m"])]).1 = [] :=
  C3_include_gating [[("cn", ["A"]), ("mail", ["m"])]] [] ["mail"] [] 2 ([], [])
    [("cn", ["A"]), ("mail", ["m"])] (by decide)

/-- Claim C4, threshold monotonicity: for levels `L ∈ {1,2,3,4}`, every
attribute classified `"Rare Standard Field"` for an entry at level `L`
is so classified at level `L+1` (the fractions 10% … 95% increase and
the test is strict less-than against `fraction × total`). -/
theorem C4_threshold_monotone :
    ∀ (L : Nat), 1 ≤ L → L ≤ 4 →
    ∀ (users : List Entry) (excl : List String) (u : Entry) (f : String)
      (vs : List String),
      (f, "Rare Standard Field", vs) ∈
        classifyEntry (fieldCount users) users.length (threshold_levels L) excl u →
      (f, "Rare Standard Field", vs) ∈
        classifyEntry (fieldCount users) users.length (threshold_levels (L + 1)) excl u := by
  intro L h1 h4 users excl u f vs hmem
  rw [classifyEntry_rare_mem_iff] at hmem ⊢
  obtain ⟨p, hp, e1, e2, e3, e4, e5⟩ := hmem
  refine ⟨p, hp, e1, e2, e3, e4, ?_⟩
  unfold belowFrac at e5 ⊢
  interval_cases L <;> norm_num [threshold_levels] at e5 ⊢ <;> omega

/-- Witness for C4: `mail`, rare at level 1 over ten `mail`-free
entries, stays rare at level 2. -/
theorem C4_threshold_monotone_witness :
    ("mail", "Rare Standard Field", ["x"]) ∈
      classifyEntry (fieldCount (List.replicate 10 [("cn", ["A"])]))
        (List.replicate 10 [("cn", ["A"])]).length (threshold_levels (1 + 1))
        [] [("mail", ["x"])] :=
  C4_threshold_monotone 1 (by decide) (by decide) (List.replicate 10 [("cn", ["A"])])
    [] [("mail", ["x"])] "mail" ["x"] (by decide)

/-- Claim C8, entry-inventory mode: the displayed sequence is exactly
the non-`"Unknown"` entries in order with one tier each; the returned
count is the number of displayed entries; and the tier is assigned in
priority order — non-standard if some attribute is outside
`standard_ldap_fields`, else rare if some attribute's global frequency
is below the fixed 60% of `total` (independent of the threshold level),
else standard. -/
theorem C8_list_users_spec :
    ∀ (users : List Entry) (fc : String → Nat),
      (list_users users fc).1 =
        users.filterMap (fun u => if getUsername u = "Unknown" then none
          else some (getUsername u, userTier fc users.length u)) ∧
      (list_users users fc).2 = (list_users users fc).1.length ∧
      (∀ (total : Nat) (u : Entry),
        (userTier fc total u = Tier.nonstandard ↔
          ∃ p ∈ u, p.1 ∉ standard_ldap_fields) ∧
        (userTier fc total u = Tier.rare ↔
          ((∀ p ∈ u, p.1 ∈ standard_ldap_fields) ∧
           ∃ p ∈ u, belowFrac (fc p.1) total (60, 100))) ∧
        (userTier fc total u = Tier.standard ↔
          ((∀ p ∈ u, p.1 ∈ standard_ldap_fields) ∧
           ∀ p ∈ u, ¬ belowFrac (fc p.1) total (60, 100)))) := by
  intro users fc
  refine ⟨?_, ?_, ?_⟩
  · rw [list_users_eq]
  · rw [list_users_eq]
  · intro total u
    have hA : (u.any (fun p => !(standard_ldap_fields.contains p.1)) = true) ↔
        ∃ p ∈ u, p.1 ∉ standard_ldap_fields := by
      rw [List.any_eq_true]
      constructor
      · rintro ⟨p, hp, hb⟩
        exact ⟨p, hp, contains_eq_false_iff.mp (by simpa using hb)⟩
      · rintro ⟨p, hp, hb⟩
        exact ⟨p, hp, by simpa using hb⟩
    have hA' : (u.any (fun p => !(standard_ldap_fields.contains p.1)) = false) ↔
        ∀ p ∈ u, p.1 ∈ standard_ldap_fields := by
      rw [List.any_eq_false]
      constructor
      · intro h p hp
        simpa using h p hp
      · intro h p hp
        simpa using h p hp
    have hB : (u.any (fun p => decide (belowFrac (fc p.1) total (60, 100))) = true) ↔
        ∃ p ∈ u, belowFrac (fc p.1) total (60, 100) := by
      rw [List.any_eq_true]
      simp
    have hB' : (u.any (fun p => decide (belowFrac (fc p.1) total (60, 100))) = false) ↔
        ∀ p ∈ u, ¬ belowFrac (fc p.1) total (60, 100) := by
      rw [List.any_eq_false]
      simp
    cases ha : u.any (fun p => !(standard_ldap_fields.contains p.1)) with
    | true =>
        have htier : userTier fc total u = Tier.nonstandard := by
          unfold userTier
          rw [ha]
          rfl
        rw [htier]
        obtain ⟨p, hp, hpb⟩ := hA.mp ha
        refine ⟨iff_of_true rfl ⟨p, hp, hpb⟩, ?_, ?_⟩
        · exact iff_of_false (by simp) fun ⟨hall, _⟩ => hpb (hall p hp)
        · exact iff_of_false (by simp) fun ⟨hall, _⟩ => hpb (hall p hp)
    | false =>
        cases hb : u.any (fun p => decide (belowFrac (fc p.1) total (60, 100))) with
        | true =>
            have htier : userTier fc total u = Tier.rare := by
              unfold userTier
              rw [ha, hb]
              rfl
            rw [htier]
            obtain ⟨p, hp, hpb⟩ := hB.mp hb
            refine ⟨?_, iff_of_true rfl ⟨hA'.mp ha, p, hp, hpb⟩, ?_⟩
            · exact iff_of_false (by simp)
                fun ⟨q, hq, hqb⟩ => hqb (hA'.mp ha q hq)
            · exact iff_of_false (by simp) fun ⟨_, hnone⟩ => hnone p hp hpb
        | false =>
            have htier : userTier fc total u = Tier.standard := by
              unfold userTier
              rw [ha, hb]
              rfl
            rw [htier]
            refine ⟨?_, ?_, iff_of_true rfl ⟨hA'.mp ha, hB'.mp hb⟩⟩
            · exact iff_of_false (by simp)
                fun ⟨q, hq, hqb⟩ => hqb (hA'.mp ha q hq)
            · exact iff_of_false (by simp)
                fun ⟨_, hsome⟩ => by
                  obtain ⟨q, hq, hqb⟩ := hsome
                  exact (hB'.mp hb q hq) hqb

/-- Claim C9, field-name validation: `validate_fields` keeps exactly
the requested names that occur in the data (the rest are dropped with a
warning, never aborting), and the exclude-set is never validated: a name
absent from every entry can be excluded without changing the
classifier's output at all. -/
theorem C9_field_validation :
    ∀ (fields existing : List String),
      (∀ f, f ∈ validate_fields fields existing ↔ (f ∈ fields ∧ f ∈ existing)) ∧
      (∀ (users : List Entry) (excl incl ia : List String) (level : Nat) (f : String),
        (∀ u ∈ users, hasField u f = false) →
        find_non_standard_fields users (f :: excl) incl ia level =
          find_non_standard_fields users excl incl ia level) := by
  have hcons : ∀ (f g : String) (excl : List String), (g == f) = false →
      (f :: excl).contains g = excl.contains g := by
    intro f g excl hgf
    show List.elem g (f :: excl) = List.elem g excl
    rw [List.elem_cons, hgf]
  have hclass : ∀ (fc : String → Nat) (tot : Nat) (thr : Nat × Nat)
      (f : String) (excl : List String) (u : Entry), hasField u f = false →
      classifyEntry fc tot thr (f :: excl) u = classifyEntry fc tot thr excl u := by
    intro fc tot thr f excl u
    induction u with
    | nil => intro _; rfl
    | cons p rest ih =>
        intro h
        unfold hasField at h
        rw [List.any_cons] at h
        rw [Bool.or_eq_false_iff] at h
        rcases p with ⟨g, ws⟩
        simp only [classifyEntry]
        rw [hcons f g excl h.1]
        rw [ih h.2]
    -- the classifier is the only consumer of the exclude-set
  have hstep : ∀ (fc : String → Nat) (tot : Nat) (thr : Nat × Nat)
      (f : String) (excl incl ia : List String)
      (acc : List (String × CResult) × List (String × CResult)) (u : Entry),
      hasField u f = false →
      fns_step fc tot thr (f :: excl) incl ia acc u =
        fns_step fc tot thr excl incl ia acc u := by
    intro fc tot thr f excl incl ia acc u h
    refine Prod.ext ?_ ?_
    · rw [fns_step_fst, fns_step_fst, hclass fc tot thr f excl u h]
    · rw [fns_step_snd, fns_step_snd]
  intro fields existing
  constructor
  · intro f
    unfold validate_fields
    rw [List.mem_filter]
    constructor
    · rintro ⟨h1, h2⟩
      exact ⟨h1, List.elem_iff.mp h2⟩
    · rintro ⟨h1, h2⟩
      exact ⟨h1, List.elem_iff.mpr h2⟩
  · intro users excl incl ia level f habs
    unfold find_non_standard_fields
    have hfold : ∀ (us : List Entry)
        (acc : List (String × CResult) × List (String × CResult)),
        (∀ u ∈ us, hasField u f = false) →
        us.foldl (fns_step (fieldCount users) users.length (threshold_levels level)
          (f :: excl) incl ia) acc =
          us.foldl (fns_step (fieldCount users) users.length (threshold_levels level)
            excl incl ia) acc := by
      intro us
      induction us with
      | nil => intro acc _; rfl
      | cons u rest ih =>
          intro acc h
          rw [List.foldl_cons, List.foldl_cons]
          rw [hstep _ _ _ _ _ _ _ _ _ (h u (List.mem_cons_self _ _))]
          exact ih _ fun w hw => h w (List.mem_cons_of_mem _ hw)
    exact hfold users ([], []) habs

/-- Claim C10: an entry whose `cn` attribute is present with first
value the literal `"Unknown"` is indistinguishable from an entry with no
`cn` at all (both display as `"Unknown"`): the entry-inventory loop
skips it entirely, and the classifier's loop skips it (primary and
include-all alike) whenever it also lacks a `description` attribute,
regardless of its other attributes. -/
theorem C10_unknown_cn_indistinguishable :
    ∀ (u : Entry) (tl : List String),
      u.find? (fun p => p.1 == "cn") = some ("cn", "Unknown" :: tl) →
      getUsername u = "Unknown" ∧
      (∀ (fc : String → Nat) (total : Nat) (acc : List (String × Tier) × Nat),
        list_users_step fc total acc u = acc) ∧
      (∀ (fc : String → Nat) (tot : Nat) (thr : Nat × Nat) (excl incl ia : List String)
        (acc : List (String × CResult) × List (String × CResult)),
        hasField u "description" = false →
        fns_step fc tot thr excl incl ia acc u = acc) ∧
      (∀ w : Entry, w.find? (fun p => p.1 == "cn") = none → getUsername w = "Unknown") := by
  intro u tl hfind
  have hname : getUsername u = "Unknown" := by
    unfold getUsername
    rw [hfind]
  refine ⟨hname, ?_, ?_, ?_⟩
  · intro fc total acc
    rw [list_users_step_eq, if_pos hname]
  · intro fc tot thr excl incl ia acc hdesc
    unfold fns_step
    rw [if_pos ⟨hname, hdesc⟩]
  · intro w hw
    unfold getUsername
    rw [hw]

/-- Witness for C10: a concrete entry with `cn = "Unknown"` and a
secret extra attribute is skipped by the inventory loop. -/
theorem C10_unknown_cn_witness :
    getUsername [("cn", ["Unknown"]), ("secretAttr", ["s"])] = "Unknown" ∧
      list_users_step (fun _ => 1) 1 ([], 0)
        [("cn", ["Unknown"]), ("secretAttr", ["s"])] = ([], 0) := by
  have h := C10_unknown_cn_indistinguishable
    [("cn", ["Unknown"]), ("secretAttr", ["s"])] [] (by decide)
  exact ⟨h.1, h.2.1 (fun _ => 1) 1 ([], 0)⟩
